import Mathlib

/-!
# Verification of the AI stories generator scripts

Shallow embedding of the three Python scripts of the repository
(`scripts/make_story.py`, `scripts/pick_ai_news.py`,
`scripts/gen_stories_from_urls.py`) and proofs of the specified
properties.

Python strings are modelled as `List Char`; Python's float-valued text
measurements (`draw.textlength`) are modelled as an arbitrary function
into `ℚ` (every finite IEEE float is a rational, and the code only
compares these values, so the theorems quantify over the measurement
function).  Python's `int` arithmetic is exact, so it is modelled by
`ℕ`/`ℤ`.
-/

namespace Stories

/-- A character is Python-whitespace.  Modelled by `Char.isWhitespace`
(Python `str.split`/`str.strip` split on the same ASCII whitespace
characters for the inputs at hand). -/
def isWs (c : Char) : Bool := c.isWhitespace

/-- `str.split()` : split on whitespace runs, dropping empty chunks.
Auxiliary accumulator holds the current (reversed) word. -/
def wordsAux : List Char → List Char → List (List Char)
  | [], cur => if cur = [] then [] else [cur.reverse]
  | c :: s, cur =>
    if isWs c then
      (if cur = [] then wordsAux s [] else cur.reverse :: wordsAux s [])
    else
      wordsAux s (c :: cur)

/-- Python `text.split()` (no separator argument): the list of maximal
whitespace-free nonempty runs of `text`. -/
def words (s : List Char) : List (List Char) := wordsAux s []

/-- Python `str.strip()`: drop leading and trailing whitespace. -/
def pyStrip (s : List Char) : List Char :=
  ((s.dropWhile isWs).reverse.dropWhile isWs).reverse

/-- Python `' '.join(lines)`. -/
def joinSpace : List (List Char) → List Char
  | [] => []
  | [l] => l
  | l :: l' :: ls => l ++ ' ' :: joinSpace (l' :: ls)

/-- The loop of `wrap_text` (`scripts/make_story.py` lines 58-73):
`tl` is `draw.textlength (·, font)`; state is the list of finished
lines and the current line `cur`.  Mirrors

```
for w in words:
    test = (cur + ' ' + w).strip()
    tw = draw.textlength(test, font=font)
    if tw <= max_width: cur = test
    else:
        if cur: lines.append(cur)
        cur = w
if cur: lines.append(cur)
```
-/
def wrapGo (tl : List Char → ℚ) (maxWidth : ℚ) :
    List (List Char) → List (List Char) → List Char → List (List Char)
  | [], lines, cur => if cur = [] then lines else lines ++ [cur]
  | w :: ws, lines, cur =>
    let test := pyStrip (cur ++ ' ' :: w)
    if tl test ≤ maxWidth then
      wrapGo tl maxWidth ws lines test
    else if cur = [] then
      wrapGo tl maxWidth ws lines w
    else
      wrapGo tl maxWidth ws (lines ++ [cur]) w

/-- `wrap_text(draw, text, font, max_width)` of `scripts/make_story.py`. -/
def wrap_text (tl : List Char → ℚ) (text : List Char) (maxWidth : ℚ) :
    List (List Char) :=
  wrapGo tl maxWidth (words text) [] []

/-- A word as produced by `str.split()`: nonempty and whitespace-free. -/
def Clean (w : List Char) : Prop := w ≠ [] ∧ ∀ c ∈ w, ¬ isWs c

/-- A string that is the space-join of a nonempty list of clean words
(the shape of every `cur`/line built by the wrap loop). -/
def Joined (s : List Char) : Prop :=
  ∃ ws, ws ≠ [] ∧ (∀ w ∈ ws, Clean w) ∧ s = joinSpace ws

/-! ## Lemmas about `words` -/

theorem wordsAux_clean (s : List Char) :
    ∀ cur, (∀ c ∈ cur, ¬ isWs c) → ∀ w ∈ wordsAux s cur, Clean w := by
  induction s with
  | nil =>
    intro cur hcur w hw
    by_cases h : cur = []
    · simp [wordsAux, h] at hw
    · simp [wordsAux, h] at hw
      subst hw
      refine ⟨by simpa using h, ?_⟩
      intro c hc
      exact hcur c (by simpa using hc)
  | cons c s ih =>
    intro cur hcur w hw
    by_cases hws : isWs c
    · by_cases h : cur = []
      · simp [wordsAux, hws, h] at hw
        exact ih [] (by simp) w hw
      · simp [wordsAux, hws, h] at hw
        rcases hw with hw | hw
        · subst hw
          refine ⟨by simpa using h, ?_⟩
          intro d hd
          exact hcur d (by simpa using hd)
        · exact ih [] (by simp) w hw
    · simp [wordsAux, hws] at hw
      refine ih (c :: cur) ?_ w hw
      intro d hd
      rcases List.mem_cons.mp hd with h | h
      · subst h; exact hws
      · exact hcur d h

theorem words_clean (s : List Char) : ∀ w ∈ words s, Clean w :=
  wordsAux_clean s [] (by simp)

theorem wordsAux_append_ws {c : Char} (hc : isWs c) (a b : List Char) :
    ∀ cur, wordsAux (a ++ c :: b) cur = wordsAux a cur ++ wordsAux b [] := by
  induction a with
  | nil =>
    intro cur
    by_cases h : cur = [] <;> simp [wordsAux, hc, h]
  | cons x a ih =>
    intro cur
    by_cases hx : isWs x
    · by_cases h : cur = [] <;> simp [wordsAux, hx, h, ih]
    · simp [wordsAux, hx, ih]

theorem words_append_ws {c : Char} (hc : isWs c) (a b : List Char) :
    words (a ++ c :: b) = words a ++ words b :=
  wordsAux_append_ws hc a b []

theorem wordsAux_no_ws (w : List Char) (hw : ∀ c ∈ w, ¬ isWs c) :
    ∀ s cur, wordsAux (w ++ s) cur = wordsAux s (w.reverse ++ cur) := by
  induction w with
  | nil => intro s cur; simp
  | cons x w ih =>
    intro s cur
    have hx : isWs x = false := by simpa using hw x (by simp)
    have hw' : ∀ c ∈ w, ¬ isWs c := fun c hc => hw c (by simp [hc])
    simp only [List.cons_append, wordsAux, hx, Bool.false_eq_true, if_false,
      List.append_eq]
    rw [ih hw' s (x :: cur)]
    simp

theorem words_of_clean {w : List Char} (hw : Clean w) : words w = [w] := by
  have h := wordsAux_no_ws w hw.2 [] []
  simp only [List.append_nil] at h
  unfold words
  rw [h]
  simp [wordsAux, hw.1]

theorem words_nil : words [] = [] := rfl

theorem words_joinSpace (L : List (List Char)) :
    words (joinSpace L) = (L.map words).flatten := by
  induction L with
  | nil => simp [joinSpace, words_nil]
  | cons l L ih =>
    cases L with
    | nil => simp [joinSpace]
    | cons l' L' =>
      have hc : isWs ' ' := by decide
      simp only [joinSpace, words_append_ws hc, ih, List.map_cons,
        List.flatten_cons]

theorem flatten_map_words_of_clean (ws : List (List Char))
    (h : ∀ w ∈ ws, Clean w) : (ws.map words).flatten = ws := by
  induction ws with
  | nil => simp
  | cons w ws ih =>
    simp only [List.map_cons, List.flatten_cons]
    rw [words_of_clean (h w (by simp)), ih (fun w hw => h w (by simp [hw]))]
    simp

theorem joined_words {s : List Char} (h : Joined s) :
    joinSpace (words s) = s ∧ (∀ w ∈ words s, Clean w) ∧ words s ≠ [] := by
  obtain ⟨ws, hne, hclean, rfl⟩ := h
  have hw : words (joinSpace ws) = ws := by
    rw [words_joinSpace, flatten_map_words_of_clean ws hclean]
  exact ⟨by rw [hw], by rw [hw]; exact hclean, by rw [hw]; exact hne⟩

theorem joinSpace_append_single (ws : List (List Char)) (hne : ws ≠ [])
    (w : List Char) : joinSpace (ws ++ [w]) = joinSpace ws ++ ' ' :: w := by
  induction ws with
  | nil => exact absurd rfl hne
  | cons x ws ih =>
    cases ws with
    | nil => simp [joinSpace]
    | cons y ws' =>
      have h1 : (x :: y :: ws') ++ [w] = x :: (y :: (ws' ++ [w])) := rfl
      rw [h1, joinSpace, show y :: (ws' ++ [w]) = (y :: ws') ++ [w] from rfl,
        ih (by simp), joinSpace]
      simp

theorem Joined.ne_nil {s : List Char} (h : Joined s) : s ≠ [] := by
  obtain ⟨ws, hne, hclean, rfl⟩ := h
  cases ws with
  | nil => exact absurd rfl hne
  | cons w ws' =>
    have hw : Clean w := hclean w (by simp)
    cases ws' with
    | nil => simpa [joinSpace] using hw.1
    | cons y ws'' =>
      simp only [joinSpace, ne_eq]
      intro hcon
      have := congrArg List.length hcon
      simp at this

theorem Joined.single {w : List Char} (hw : Clean w) : Joined w :=
  ⟨[w], by simp, by simpa using hw, rfl⟩

theorem Joined.extend {s w : List Char} (h : Joined s) (hw : Clean w) :
    Joined (s ++ ' ' :: w) := by
  obtain ⟨ws, hne, hclean, rfl⟩ := h
  refine ⟨ws ++ [w], by simp, ?_, (joinSpace_append_single ws hne w).symm⟩
  intro x hx
  rcases List.mem_append.mp hx with hx | hx
  · exact hclean x hx
  · simp at hx; subst hx; exact hw

/-! ## Lemmas about `pyStrip` -/

theorem dropWhile_of_head_neg {p : Char → Bool} {c : Char} {s : List Char}
    (h : ¬ p c) : (c :: s).dropWhile p = c :: s := by
  simp [List.dropWhile_cons, h]

theorem pyStrip_eq_self {c d : Char} (hc : ¬ isWs c) (hd : ¬ isWs d) :
    ∀ mid : List Char, pyStrip (c :: (mid ++ [d])) = c :: (mid ++ [d]) := by
  intro mid
  unfold pyStrip
  rw [dropWhile_of_head_neg hc]
  have hrev : (c :: (mid ++ [d])).reverse = d :: (mid.reverse ++ [c]) := by
    simp
  rw [hrev, dropWhile_of_head_neg hd, ← hrev, List.reverse_reverse]

theorem pyStrip_single_word {w : List Char} (hw : Clean w) :
    pyStrip (' ' :: w) = w := by
  obtain ⟨w', d, rfl⟩ := w.eq_nil_or_concat.resolve_left hw.1
  simp only [List.concat_eq_append] at hw ⊢
  have hd : ¬ isWs d := hw.2 d (by simp)
  unfold pyStrip
  rw [show (' ' :: (w' ++ [d])).dropWhile isWs = w' ++ [d] by
    simp only [List.dropWhile_cons]
    rw [if_pos (by decide)]
    cases w' with
    | nil => simp [List.dropWhile_cons, hd]
    | cons x w'' =>
      have hx : ¬ isWs x := hw.2 x (by simp)
      simp [List.dropWhile_cons, hx]]
  have hrev : (w' ++ [d]).reverse = d :: w'.reverse := by simp
  rw [hrev, dropWhile_of_head_neg hd, ← hrev, List.reverse_reverse]

theorem pyStrip_joined_word {s w : List Char} (hs : Joined s) (hw : Clean w) :
    pyStrip (s ++ ' ' :: w) = s ++ ' ' :: w := by
  obtain ⟨ws, hne, hclean, rfl⟩ := hs
  obtain ⟨w₀, ws', rfl⟩ : ∃ w₀ ws', ws = w₀ :: ws' := by
    cases ws with
    | nil => exact absurd rfl hne
    | cons a b => exact ⟨a, b, rfl⟩
  have hw₀ : Clean w₀ := hclean w₀ (by simp)
  obtain ⟨c, w₀', rfl⟩ : ∃ c w₀', w₀ = c :: w₀' := by
    cases w₀ with
    | nil => exact absurd rfl hw₀.1
    | cons a b => exact ⟨a, b, rfl⟩
  have hc : ¬ isWs c := hw₀.2 c (by simp)
  obtain ⟨w', d, rfl⟩ := w.eq_nil_or_concat.resolve_left hw.1
  simp only [List.concat_eq_append] at hw ⊢
  have hd : ¬ isWs d := hw.2 d (by simp)
  have hshape : joinSpace ((c :: w₀') :: ws') ++ ' ' :: (w' ++ [d]) =
      c :: ((joinSpace ((c :: w₀') :: ws')).tail ++ (' ' :: w') ++ [d]) := by
    have : joinSpace ((c :: w₀') :: ws') =
        c :: (joinSpace ((c :: w₀') :: ws')).tail := by
      cases ws' with
      | nil => simp [joinSpace]
      | cons y ws'' => simp [joinSpace]
    conv_lhs => rw [this]
    simp
  rw [hshape, pyStrip_eq_self hc hd, ← hshape]

/-! ## The wrap-loop invariant -/

theorem wrapGo_spec (tl : List Char → ℚ) (maxWidth : ℚ)
    (W₀ : List (List Char)) :
    ∀ ws lines cur,
      (∀ w ∈ ws, Clean w) → (∀ w ∈ ws, w ∈ W₀) →
      (cur = [] ∨ Joined cur) →
      (cur = [] ∨ tl cur ≤ maxWidth ∨ cur ∈ W₀) →
      ∃ new, wrapGo tl maxWidth ws lines cur = lines ++ new
        ∧ (new.map words).flatten = words cur ++ ws
        ∧ ∀ l ∈ new, Joined l ∧ (tl l ≤ maxWidth ∨ l ∈ W₀) := by
  intro ws
  induction ws with
  | nil =>
    intro lines cur hclean hsub hcur hcur2
    by_cases h : cur = []
    · exact ⟨[], by simp [wrapGo, h], by simp [h, words_nil], by simp⟩
    · refine ⟨[cur], by simp [wrapGo, h], by simp, ?_⟩
      intro l hl
      rw [List.mem_singleton] at hl
      subst hl
      exact ⟨hcur.resolve_left h, hcur2.resolve_left h⟩
  | cons w ws ih =>
    intro lines cur hclean hsub hcur hcur2
    have hwclean : Clean w := hclean w (by simp)
    have hclean' : ∀ x ∈ ws, Clean x := fun x hx => hclean x (by simp [hx])
    have hsub' : ∀ x ∈ ws, x ∈ W₀ := fun x hx => hsub x (by simp [hx])
    have hwords_w : words w = [w] := words_of_clean hwclean
    by_cases h : cur = []
    · subst h
      have htest : pyStrip ([] ++ ' ' :: w) = w := by
        simpa using pyStrip_single_word hwclean
      rw [wrapGo]
      simp only [htest]
      by_cases hfit : tl w ≤ maxWidth
      · rw [if_pos hfit]
        obtain ⟨new, h1, h2, h3⟩ := ih lines w hclean' hsub'
          (Or.inr (Joined.single hwclean)) (Or.inr (Or.inl hfit))
        exact ⟨new, h1, by rw [h2, hwords_w]; simp [words_nil], h3⟩
      · rw [if_neg hfit, if_pos trivial]
        obtain ⟨new, h1, h2, h3⟩ := ih lines w hclean' hsub'
          (Or.inr (Joined.single hwclean)) (Or.inr (Or.inr (hsub w (by simp))))
        exact ⟨new, h1, by rw [h2, hwords_w]; simp [words_nil], h3⟩
    · have hJ : Joined cur := hcur.resolve_left h
      have htest : pyStrip (cur ++ ' ' :: w) = cur ++ ' ' :: w :=
        pyStrip_joined_word hJ hwclean
      have hwtest : words (cur ++ ' ' :: w) = words cur ++ [w] := by
        rw [words_append_ws (by decide) cur w, hwords_w]
      rw [wrapGo]
      simp only [htest]
      by_cases hfit : tl (cur ++ ' ' :: w) ≤ maxWidth
      · rw [if_pos hfit]
        obtain ⟨new, h1, h2, h3⟩ := ih lines (cur ++ ' ' :: w) hclean' hsub'
          (Or.inr (Joined.extend hJ hwclean)) (Or.inr (Or.inl hfit))
        refine ⟨new, h1, ?_, h3⟩
        rw [h2, hwtest]
        simp
      · rw [if_neg hfit, if_neg h]
        obtain ⟨new, h1, h2, h3⟩ := ih (lines ++ [cur]) w hclean' hsub'
          (Or.inr (Joined.single hwclean)) (Or.inr (Or.inr (hsub w (by simp))))
        refine ⟨cur :: new, by rw [h1]; simp, ?_, ?_⟩
        · rw [List.map_cons, List.flatten_cons, h2, hwords_w]
          simp
        · intro l hl
          rcases List.mem_cons.mp hl with hl | hl
          · subst hl
            exact ⟨hJ, hcur2.resolve_left h⟩
          · exact h3 l hl

/-- Summary of `wrap_text`: the output decomposes the input's words, and
every line is a nonempty space-join of clean words that either fits in
`maxWidth` or is a single input word. -/
theorem wrap_text_spec (tl : List Char → ℚ) (text : List Char)
    (maxWidth : ℚ) :
    ((wrap_text tl text maxWidth).map words).flatten = words text
      ∧ ∀ l ∈ wrap_text tl text maxWidth,
          Joined l ∧ (tl l ≤ maxWidth ∨ l ∈ words text) := by
  obtain ⟨new, h1, h2, h3⟩ := wrapGo_spec tl maxWidth (words text)
    (words text) [] [] (words_clean text) (fun w hw => hw)
    (Or.inl rfl) (Or.inl rfl)
  unfold wrap_text
  rw [h1]
  simp only [List.nil_append]
  exact ⟨by rw [h2, words_nil]; simp, h3⟩

theorem words_of_all_ws {s : List Char} (h : ∀ c ∈ s, isWs c) :
    words s = [] := by
  induction s with
  | nil => rfl
  | cons c s ih =>
    have hc : isWs c := h c (by simp)
    have := ih (fun d hd => h d (by simp [hd]))
    unfold words wordsAux
    simp only [hc, if_true, if_pos rfl]
    exact this

theorem flatten_take_pref {α : Type} (M : List (List α)) (n : ℕ) :
    (M.take n).flatten <+: M.flatten :=
  ⟨(M.drop n).flatten, by rw [← List.flatten_append, List.take_append_drop]⟩

/-- C2: a line returned by `wrap_text` whose rendered width exceeds
`maxWidth` is necessarily a single word of the input text (overflow is
possible only for a single over-wide word); every other line fits. -/
theorem wrap_text_width_bound (tl : List Char → ℚ) (text : List Char)
    (maxWidth : ℚ) (line : List Char)
    (hmem : line ∈ wrap_text tl text maxWidth) :
    tl line ≤ maxWidth ∨ line ∈ words text :=
  ((wrap_text_spec tl text maxWidth).2 line hmem).2

theorem wrap_text_width_bound_witness :
    ("ab cd".toList ∈ wrap_text (fun s => (s.length : ℚ)) "ab cd".toList 5)
    ∧ ((fun s : List Char => (s.length : ℚ)) "ab cd".toList ≤ 5
        ∨ "ab cd".toList ∈ words "ab cd".toList) :=
  ⟨by decide,
   wrap_text_width_bound (fun s => (s.length : ℚ)) "ab cd".toList 5
     "ab cd".toList (by decide)⟩

/-- C3: wrapping is a function of the word sequence only (deterministic
for a fixed measurement function and width); splitting the space-join of
the returned lines reproduces the input's word sequence exactly, and
after truncation to the first 3 lines it yields a prefix of it. -/
theorem wrap_text_roundtrip (tl : List Char → ℚ) (text : List Char)
    (maxWidth : ℚ) :
    words (joinSpace (wrap_text tl text maxWidth)) = words text
    ∧ words (joinSpace ((wrap_text tl text maxWidth).take 3)) <+: words text
    ∧ ∀ text', words text' = words text →
        wrap_text tl text' maxWidth = wrap_text tl text maxWidth := by
  refine ⟨?_, ?_, ?_⟩
  · rw [words_joinSpace, (wrap_text_spec tl text maxWidth).1]
  · rw [words_joinSpace, List.map_take]
    rw [← (wrap_text_spec tl text maxWidth).1]
    exact flatten_take_pref _ 3
  · intro text' h
    unfold wrap_text
    rw [h]

theorem wrap_text_roundtrip_witness :
    words (joinSpace (wrap_text (fun s => (s.length : ℚ)) "ab cd".toList 5))
      = words "ab cd".toList
    ∧ wrap_text (fun s => (s.length : ℚ)) " ab  cd ".toList 5
      = wrap_text (fun s => (s.length : ℚ)) "ab cd".toList 5 :=
  ⟨(wrap_text_roundtrip (fun s => (s.length : ℚ)) "ab cd".toList 5).1,
   (wrap_text_roundtrip (fun s => (s.length : ℚ)) "ab cd".toList 5).2.2
     " ab  cd ".toList (by decide)⟩

/-- C10: every line returned by `wrap_text` is nonempty, and an empty or
whitespace-only input yields no lines at all. -/
theorem wrap_text_lines_nonempty (tl : List Char → ℚ) (text : List Char)
    (maxWidth : ℚ) :
    (∀ l ∈ wrap_text tl text maxWidth, l ≠ [])
    ∧ ((∀ c ∈ text, isWs c) → wrap_text tl text maxWidth = []) := by
  constructor
  · intro l hl
    exact Joined.ne_nil ((wrap_text_spec tl text maxWidth).2 l hl).1
  · intro hws
    unfold wrap_text
    rw [words_of_all_ws hws]
    rfl

theorem wrap_text_lines_nonempty_witness :
    wrap_text (fun s => (s.length : ℚ)) "   ".toList 5 = []
    ∧ ("ab".toList ∈ wrap_text (fun s => (s.length : ℚ)) "ab cd".toList 2
        ∧ "ab".toList ≠ []) :=
  ⟨(wrap_text_lines_nonempty (fun s => (s.length : ℚ)) "   ".toList 5).2
     (by decide),
   by
     refine ⟨by decide, ?_⟩
     exact (wrap_text_lines_nonempty (fun s => (s.length : ℚ))
       "ab cd".toList 2).1 "ab".toList (by decide)⟩

/-! ## The story composer `render` (`scripts/make_story.py` lines 76-131) -/

/-- Canvas width `W = 1080`. -/
def canvasW : ℕ := 1080

/-- Canvas height `H = 1920`. -/
def canvasH : ℕ := 1920

/-- `margin = 70`. -/
def canvasMargin : ℕ := 70

/-- `maxw = W - 2 * margin` (= 940), the maximum text width. -/
def maxw : ℕ := canvasW - 2 * canvasMargin

/-- An input item of `make_story.py`: the fields as read by
`item.get('title','')` etc. (a missing JSON key is the empty string). -/
structure Item where
  title : List Char
  url : List Char
  subtitle : List Char
  impact : List Char
  deriving DecidableEq

/-- Title lines drawn by `render` (line 98):
`wrap_text(draw, item.get('title','').strip(), title_font, maxw)[:3]`.
`tlT` measures text in the title font. -/
def title_lines (tlT : List Char → ℚ) (it : Item) : List (List Char) :=
  (wrap_text tlT (pyStrip it.title) (maxw : ℚ)).take 3

/-- Subtitle lines drawn by `render` (lines 104-106): the block is drawn
only when the stripped subtitle is nonempty. -/
def sub_lines (tlS : List Char → ℚ) (it : Item) : List (List Char) :=
  if pyStrip it.subtitle = [] then []
  else (wrap_text tlS (pyStrip it.subtitle) (maxw : ℚ)).take 3

/-- Impact lines drawn by `render` (lines 112-120): the block is drawn
only when the stripped impact is nonempty. -/
def impact_lines (tlI : List Char → ℚ) (it : Item) : List (List Char) :=
  if pyStrip it.impact = [] then []
  else (wrap_text tlI (pyStrip it.impact) (maxw : ℚ)).take 3

/-- C4: each of the three text blocks is wrapped independently (each
depends only on its own field and font) and truncated to at most 3
lines; the drawn lines are an unmodified prefix of the full wrap output
(no ellipsis is added) and what is cut is exactly the lines beyond the
third (silently dropped, no error value anywhere). -/
theorem render_blocks_spec (tlT tlS tlI : List Char → ℚ) (it it' : Item) :
    (title_lines tlT it).length ≤ 3
    ∧ (sub_lines tlS it).length ≤ 3
    ∧ (impact_lines tlI it).length ≤ 3
    ∧ title_lines tlT it <+: wrap_text tlT (pyStrip it.title) (maxw : ℚ)
    ∧ (pyStrip it.subtitle ≠ [] →
        sub_lines tlS it <+: wrap_text tlS (pyStrip it.subtitle) (maxw : ℚ))
    ∧ (pyStrip it.impact ≠ [] →
        impact_lines tlI it <+: wrap_text tlI (pyStrip it.impact) (maxw : ℚ))
    ∧ title_lines tlT it ++ (wrap_text tlT (pyStrip it.title) (maxw : ℚ)).drop 3
        = wrap_text tlT (pyStrip it.title) (maxw : ℚ)
    ∧ (it.title = it'.title → title_lines tlT it = title_lines tlT it')
    ∧ (it.subtitle = it'.subtitle → sub_lines tlS it = sub_lines tlS it')
    ∧ (it.impact = it'.impact → impact_lines tlI it = impact_lines tlI it') := by
  refine ⟨?_, ?_, ?_, ?_, ?_, ?_, ?_, ?_, ?_, ?_⟩
  · simp [title_lines]
  · unfold sub_lines
    split
    · simp
    · simp
  · unfold impact_lines
    split
    · simp
    · simp
  · exact List.take_prefix 3 _
  · intro h
    unfold sub_lines
    rw [if_neg h]
    exact List.take_prefix 3 _
  · intro h
    unfold impact_lines
    rw [if_neg h]
    exact List.take_prefix 3 _
  · exact List.take_append_drop 3 _
  · intro h; unfold title_lines; rw [h]
  · intro h; unfold sub_lines; rw [h]
  · intro h; unfold impact_lines; rw [h]

theorem render_blocks_spec_witness :
    (title_lines (fun s => (s.length : ℚ))
        ⟨"Big AI news".toList, [], "sub text".toList, [] ⟩).length ≤ 3
    ∧ (pyStrip ("sub text".toList) ≠ []
        ∧ sub_lines (fun s => (s.length : ℚ))
            ⟨"Big AI news".toList, [], "sub text".toList, [] ⟩
          <+: wrap_text (fun s => (s.length : ℚ))
            (pyStrip ("sub text".toList)) (maxw : ℚ))
    ∧ title_lines (fun s => (s.length : ℚ))
          ⟨"Big AI news".toList, [], "sub text".toList, [] ⟩
        = title_lines (fun s => (s.length : ℚ))
          ⟨"Big AI news".toList, "u".toList, [], "i".toList⟩ := by
  refine ⟨?_, ⟨by decide, ?_⟩, ?_⟩
  · exact (render_blocks_spec (fun s => (s.length : ℚ)) (fun s => (s.length : ℚ))
      (fun s => (s.length : ℚ)) ⟨"Big AI news".toList, [], "sub text".toList, [] ⟩
      ⟨"Big AI news".toList, "u".toList, [], "i".toList⟩).1
  · exact (render_blocks_spec (fun s => (s.length : ℚ)) (fun s => (s.length : ℚ))
      (fun s => (s.length : ℚ)) ⟨"Big AI news".toList, [], "sub text".toList, [] ⟩
      ⟨"Big AI news".toList, "u".toList, [], "i".toList⟩).2.2.2.2.1 (by decide)
  · exact (render_blocks_spec (fun s => (s.length : ℚ)) (fun s => (s.length : ℚ))
      (fun s => (s.length : ℚ)) ⟨"Big AI news".toList, [], "sub text".toList, [] ⟩
      ⟨"Big AI news".toList, "u".toList, [], "i".toList⟩).2.2.2.2.2.2.2.1 rfl

/-! ## The footer (`render`, lines 125-128) -/

/-- Python `s.replace(pat, '')` for nonempty `pat`: scan left to right,
removing every non-overlapping occurrence of `pat`.  `fuel` bounds the
recursion and is adequate whenever `fuel ≥ s.length`. -/
def removeAllAux (pat : List Char) : ℕ → List Char → List Char
  | _, [] => []
  | 0, s => s
  | fuel+1, c :: s =>
    if pat.isPrefixOf (c :: s) then
      removeAllAux pat fuel (s.drop (pat.length - 1))
    else
      c :: removeAllAux pat fuel s

/-- Python `s.replace(pat, '')` (for the nonempty patterns used here). -/
def removeAll (pat s : List Char) : List Char := removeAllAux pat s.length s

/-- The scheme string `'https://'`. -/
def httpsPat : List Char := "https://".toList

/-- The scheme string `'http://'`. -/
def httpPat : List Char := "http://".toList

/-- The footer drawn by `render` (lines 126-128):
`url.replace('https://','').replace('http://','')[:60]`. -/
def footerText (url : List Char) : List Char :=
  (removeAll httpPat (removeAll httpsPat url)).take 60

/-- The footer as the claim words it: the URL with its *leading* scheme
prefix stripped, the rest preserved unchanged, truncated to 60
characters.  Stated for comparison with `footerText`. -/
def claimFooter (url : List Char) : List Char :=
  (if httpsPat.isPrefixOf url then url.drop 8
   else if httpPat.isPrefixOf url then url.drop 7
   else url).take 60

/-- C8 fails on the code: `str.replace` removes every occurrence of the
scheme strings, not only a leading prefix, so a URL whose tail contains
a second `https://` is not preserved unchanged after the scheme. -/
theorem footer_strip_counterexample :
    footerText "https://a.b/?u=https://c.d".toList
      ≠ claimFooter "https://a.b/?u=https://c.d".toList := by
  decide

theorem removeAllAux_fuel (pat : List Char) :
    ∀ f₁ f₂ s, s.length ≤ f₁ → s.length ≤ f₂ →
      removeAllAux pat f₁ s = removeAllAux pat f₂ s := by
  intro f₁
  induction f₁ with
  | zero =>
    intro f₂ s h1 _
    have : s = [] := List.eq_nil_of_length_eq_zero (Nat.le_zero.mp h1)
    subst this
    cases f₂ <;> rfl
  | succ f ih =>
    intro f₂ s h1 h2
    cases s with
    | nil => cases f₂ <;> rfl
    | cons c s' =>
      cases f₂ with
      | zero => simp at h2
      | succ g =>
        rw [removeAllAux, removeAllAux]
        by_cases hp : pat.isPrefixOf (c :: s')
        · rw [if_pos hp, if_pos hp]
          refine ih g _ ?_ ?_
          · calc (s'.drop (pat.length - 1)).length ≤ s'.length :=
                by simp [List.length_drop]
              _ ≤ f := by simpa using h1
          · calc (s'.drop (pat.length - 1)).length ≤ s'.length :=
                by simp [List.length_drop]
              _ ≤ g := by simpa using h2
        · rw [if_neg hp, if_neg hp]
          rw [ih g s' (by simpa using h1) (by simpa using h2)]

theorem removeAllAux_of_no_occ (pat : List Char) :
    ∀ f s, ¬ pat <:+: s → removeAllAux pat f s = s := by
  intro f
  induction f with
  | zero => intro s _; cases s <;> rfl
  | succ f ih =>
    intro s hocc
    cases s with
    | nil => rfl
    | cons c s' =>
      rw [removeAllAux]
      have hp : ¬ pat.isPrefixOf (c :: s') := by
        intro h
        exact hocc ((List.isPrefixOf_iff_prefix.mp h).isInfix)
      rw [if_neg hp, ih s' (fun h => hocc (h.trans (List.suffix_cons c s').isInfix))]

/-- `replace` on a string with no occurrence of the pattern is the
identity. -/
theorem removeAll_of_no_occ {pat : List Char}
    {s : List Char} (h : ¬ pat <:+: s) : removeAll pat s = s :=
  removeAllAux_of_no_occ pat _ s h

/-- `replace` removes a leading occurrence of the pattern. -/
theorem removeAll_head_match (pat rest : List Char) (hne : pat ≠ []) :
    removeAll pat (pat ++ rest) = removeAll pat rest := by
  obtain ⟨c, pat', rfl⟩ : ∃ c pat', pat = c :: pat' := by
    cases pat with
    | nil => exact absurd rfl hne
    | cons a b => exact ⟨a, b, rfl⟩
  unfold removeAll
  rw [show (c :: pat') ++ rest = c :: (pat' ++ rest) from rfl]
  rw [show (c :: (pat' ++ rest)).length = (pat' ++ rest).length + 1 from by simp]
  rw [removeAllAux]
  rw [if_pos (show ((c :: pat').isPrefixOf (c :: (pat' ++ rest))) = true from
    List.isPrefixOf_iff_prefix.mpr (List.prefix_append (c :: pat') rest))]
  rw [show (c :: pat').length - 1 = pat'.length from by simp]
  rw [List.drop_left]
  exact removeAllAux_fuel _ _ _ _ (by simp) le_rfl

/-- C8 amended: the footer is the URL with *every* occurrence of
`'https://'` removed and then every occurrence of `'http://'` removed,
truncated to 60 characters; in particular it is never longer than 60
characters, and whenever the only scheme occurrence in the URL is the
leading one, it coincides with the claim's leading-scheme-strip. -/
theorem footer_amended_spec (it : Item) :
    (footerText it.url).length ≤ 60
    ∧ (∀ rest, it.url = httpsPat ++ rest → ¬ httpsPat <:+: rest →
        ¬ httpPat <:+: rest →
        footerText it.url = rest.take 60
          ∧ footerText it.url = claimFooter it.url)
    ∧ (∀ rest, it.url = httpPat ++ rest → ¬ httpsPat <:+: it.url →
        ¬ httpPat <:+: rest →
        footerText it.url = rest.take 60
          ∧ footerText it.url = claimFooter it.url)
    ∧ (¬ httpsPat <:+: it.url → ¬ httpPat <:+: it.url →
        footerText it.url = it.url.take 60
          ∧ footerText it.url = claimFooter it.url) := by
  refine ⟨?_, ?_, ?_, ?_⟩
  · simp only [footerText, List.length_take]
    omega
  · intro rest hurl h1 h2
    have hcode : footerText it.url = rest.take 60 := by
      unfold footerText
      rw [hurl, removeAll_head_match httpsPat rest (by decide),
        removeAll_of_no_occ h1, removeAll_of_no_occ h2]
    refine ⟨hcode, ?_⟩
    rw [hcode]
    unfold claimFooter
    rw [hurl,
      if_pos (List.isPrefixOf_iff_prefix.mpr (List.prefix_append httpsPat rest)),
      show (8 : ℕ) = httpsPat.length from rfl, List.drop_left]
  · intro rest hurl h1 h2
    have hnp : ¬ httpsPat.isPrefixOf it.url := by
      intro h
      exact h1 (List.IsPrefix.isInfix (List.isPrefixOf_iff_prefix.mp h))
    have hcode : footerText it.url = rest.take 60 := by
      unfold footerText
      rw [removeAll_of_no_occ h1, hurl,
        removeAll_head_match httpPat rest (by decide),
        removeAll_of_no_occ h2]
    refine ⟨hcode, ?_⟩
    rw [hcode]
    unfold claimFooter
    rw [if_neg (by simpa using hnp)]
    rw [hurl,
      if_pos (List.isPrefixOf_iff_prefix.mpr (List.prefix_append httpPat rest)),
      show (7 : ℕ) = httpPat.length from rfl, List.drop_left]
  · intro h1 h2
    have hnp1 : ¬ httpsPat.isPrefixOf it.url := by
      intro h
      exact h1 (List.IsPrefix.isInfix (List.isPrefixOf_iff_prefix.mp h))
    have hnp2 : ¬ httpPat.isPrefixOf it.url := by
      intro h
      exact h2 (List.IsPrefix.isInfix (List.isPrefixOf_iff_prefix.mp h))
    have hcode : footerText it.url = it.url.take 60 := by
      unfold footerText
      rw [removeAll_of_no_occ h1, removeAll_of_no_occ h2]
    refine ⟨hcode, ?_⟩
    rw [hcode]
    unfold claimFooter
    rw [if_neg (by simpa using hnp1), if_neg (by simpa using hnp2)]

theorem footer_amended_spec_witness :
    ("https://ex.com/p".toList
        = httpsPat ++ "ex.com/p".toList)
    ∧ footerText "https://ex.com/p".toList = ("ex.com/p".toList).take 60
    ∧ footerText "https://ex.com/p".toList
        = claimFooter "https://ex.com/p".toList := by
  refine ⟨by decide, ?_⟩
  have h := (footer_amended_spec
      ⟨[], "https://ex.com/p".toList, [], []⟩).2.1
    "ex.com/p".toList (by decide) (by decide) (by decide)
  exact h

/-! ## The feed picker (`scripts/pick_ai_news.py`) -/

/-- A parsed feed entry as seen by the main loop: `title`, `link` and
`summary` as returned by `feedparser` (before the `.strip()` calls),
and the parsed publication time of `parse_dt` in epoch seconds
(`None` when neither `published_parsed` nor `updated_parsed` exists). -/
structure Entry where
  title : List Char
  link : List Char
  summary : List Char
  published : Option ℤ

/-- A candidate as built by the loop (lines 69-74): `published` is the
ISO timestamp string, or `None` when the time is unknown. -/
structure Cand where
  title : List Char
  url : List Char
  source : List Char
  published : Option (List Char)
  deriving DecidableEq

/-- `cutoff = now - timedelta(hours=args.hours)`, in epoch seconds. -/
def cutoff (now hours : ℤ) : ℤ := now - hours * 3600

/-- The recency test of line 65: `when and when < cutoff` (a known
publication time strictly before the cutoff excludes the entry; an
unknown time never does). -/
def isExcludedByRecency (cut : ℤ) : Option ℤ → Bool
  | none => false
  | some t => decide (t < cut)

/-- The per-entry body of the main loop (lines 57-74): keyword filter on
`f"{title} {summary}"`, recency filter, empty-link filter, then the
candidate record.  `kw` abstracts `KEYWORDS.search` (the regex engine is
an external library); `iso` abstracts `when.isoformat().replace(...)`. -/
def procEntry (kw : List Char → Bool) (iso : ℤ → List Char) (cut : ℤ)
    (src : List Char) (e : Entry) : Option Cand :=
  let title := pyStrip e.title
  let link := pyStrip e.link
  let summary := pyStrip e.summary
  let blob := title ++ ' ' :: summary
  if ¬ kw blob then none
  else if isExcludedByRecency cut e.published then none
  else if link = [] then none
  else some ⟨title, link, src, e.published.map iso⟩

/-- One feed, already fetched: its resolved source label
(`d.feed title`/`link`/url, line 56) and its entries in feed order. -/
structure Feed where
  src : List Char
  entries : List Entry

/-- The candidate list accumulated over all feeds, in feed-file order
and entry order (lines 53-74). -/
def collect (kw : List Char → Bool) (iso : ℤ → List Char) (cut : ℤ)
    (feeds : List Feed) : List Cand :=
  feeds.flatMap (fun f => f.entries.filterMap (procEntry kw iso cut f.src))

/-- The dedupe loop of lines 76-83: `seen` is the set of already-kept
URLs, the first candidate with each URL is kept. -/
def dedupeAux (seen : List (List Char)) : List Cand → List Cand
  | [] => []
  | c :: cs =>
    if c.url ∈ seen then dedupeAux seen cs
    else c :: dedupeAux (c.url :: seen) cs

/-- `deduped` of `pick_ai_news.py`. -/
def dedupe (l : List Cand) : List Cand := dedupeAux [] l

theorem dedupeAux_spec (l : List Cand) :
    ∀ seen,
      ((dedupeAux seen l).map (fun c => c.url)).Nodup
      ∧ (∀ c ∈ dedupeAux seen l, c.url ∉ seen)
      ∧ List.Sublist (dedupeAux seen l) l
      ∧ (∀ c ∈ dedupeAux seen l, l.find? (fun d => d.url == c.url) = some c)
      ∧ (∀ c ∈ l, c.url ∈ seen ∨ ∃ c' ∈ dedupeAux seen l, c'.url = c.url) := by
  induction l with
  | nil =>
    intro seen
    refine ⟨by simp [dedupeAux], by simp [dedupeAux], ?_, by simp [dedupeAux],
      by simp⟩
    simp [dedupeAux]
  | cons c cs ih =>
    intro seen
    by_cases hmem : c.url ∈ seen
    · obtain ⟨ih1, ih2, ih3, ih4, ih5⟩ := ih seen
      rw [show dedupeAux seen (c :: cs) = dedupeAux seen cs from by
        rw [dedupeAux, if_pos hmem]]
      refine ⟨ih1, ih2, ih3.cons c, ?_, ?_⟩
      · intro x hx
        have hne : ¬ (c.url == x.url) = true := by
          intro h
          exact ih2 x hx (by rw [← eq_of_beq h]; exact hmem)
        have hpa : (c.url == x.url) = false := by
          simpa using fun h => hne (by simpa using h)
        rw [List.find?_cons, hpa]
        exact ih4 x hx
      · intro x hx
        rcases List.mem_cons.mp hx with hx | hx
        · subst hx; exact Or.inl hmem
        · exact ih5 x hx
    · obtain ⟨ih1, ih2, ih3, ih4, ih5⟩ := ih (c.url :: seen)
      rw [show dedupeAux seen (c :: cs) = c :: dedupeAux (c.url :: seen) cs from
        by rw [dedupeAux, if_neg hmem]]
      refine ⟨?_, ?_, ih3.cons₂ c, ?_, ?_⟩
      · rw [List.map_cons, List.nodup_cons]
        refine ⟨?_, ih1⟩
        intro hcon
        obtain ⟨x, hx, hxu⟩ := List.mem_map.mp hcon
        exact ih2 x hx (by rw [hxu]; simp)
      · intro x hx
        rcases List.mem_cons.mp hx with hx | hx
        · subst hx; exact hmem
        · intro hcon
          exact ih2 x hx (by simp [hcon])
      · intro x hx
        rcases List.mem_cons.mp hx with hx | hx
        · subst hx
          have hpa : (x.url == x.url) = true := by simp
          rw [List.find?_cons, hpa]
        · have hne : ¬ (c.url == x.url) = true := by
            intro h
            exact ih2 x hx (by rw [← eq_of_beq h]; simp)
          have hpa : (c.url == x.url) = false := by
            simpa using fun h => hne (by simpa using h)
          rw [List.find?_cons, hpa]
          exact ih4 x hx
      · intro x hx
        rcases List.mem_cons.mp hx with hx | hx
        · subst hx
          exact Or.inr ⟨x, by simp, rfl⟩
        · rcases ih5 x hx with h | ⟨c', hc', hc'u⟩
          · rcases List.mem_cons.mp h with h | h
            · exact Or.inr ⟨c, by simp, h.symm⟩
            · exact Or.inl h
          · exact Or.inr ⟨c', by simp [hc'], hc'u⟩

/-- C5: in the deduplicated candidate list built over all feeds (in
feed-file order, then entry order), every URL occurs at most once, the
survivors are a subsequence of the discovery order, each survivor is the
first-encountered candidate with its URL, and every discovered URL is
represented. -/
theorem dedupe_first_wins (kw : List Char → Bool) (iso : ℤ → List Char)
    (cut : ℤ) (feeds : List Feed) :
    ((dedupe (collect kw iso cut feeds)).map (fun c => c.url)).Nodup
    ∧ List.Sublist (dedupe (collect kw iso cut feeds)) (collect kw iso cut feeds)
    ∧ (∀ c ∈ dedupe (collect kw iso cut feeds),
        (collect kw iso cut feeds).find? (fun d => d.url == c.url) = some c)
    ∧ (∀ c ∈ collect kw iso cut feeds,
        ∃ c' ∈ dedupe (collect kw iso cut feeds), c'.url = c.url) := by
  obtain ⟨h1, _, h3, h4, h5⟩ := dedupeAux_spec (collect kw iso cut feeds) []
  refine ⟨h1, h3, h4, ?_⟩
  intro c hc
  rcases h5 c hc with h | h
  · simp at h
  · exact h

theorem dedupe_first_wins_witness :
    (⟨"t1".toList, "u".toList, "A".toList, none⟩ : Cand)
        ∈ dedupe (collect (fun _ => true) (fun _ => []) 0
          [⟨"A".toList, [⟨"t1".toList, "u".toList, "s1".toList, none⟩]⟩,
           ⟨"B".toList, [⟨"t2".toList, "u".toList, "s2".toList, none⟩]⟩])
    ∧ (collect (fun _ => true) (fun _ => []) 0
          [⟨"A".toList, [⟨"t1".toList, "u".toList, "s1".toList, none⟩]⟩,
           ⟨"B".toList, [⟨"t2".toList, "u".toList, "s2".toList, none⟩]⟩]).find?
        (fun d => d.url == "u".toList)
        = some ⟨"t1".toList, "u".toList, "A".toList, none⟩ := by
  refine ⟨by decide, ?_⟩
  exact (dedupe_first_wins (fun _ => true) (fun _ => []) 0
    [⟨"A".toList, [⟨"t1".toList, "u".toList, "s1".toList, none⟩]⟩,
     ⟨"B".toList, [⟨"t2".toList, "u".toList, "s2".toList, none⟩]⟩]).2.2.1
    ⟨"t1".toList, "u".toList, "A".toList, none⟩ (by decide)

/-- C7: the recency filter (line 65) excludes an entry exactly when its
published time is known and strictly earlier than `now - hours`; with
`--hours 24` an entry published 25 hours ago is excluded; an entry with
no parseable timestamp is never excluded; and for an entry passing the
keyword and link checks, the loop drops it precisely when the recency
filter excludes it. -/
theorem recency_filter_spec (now hours : ℤ) (e : Entry)
    (kw : List Char → Bool) (iso : ℤ → List Char) (src : List Char) :
    (isExcludedByRecency (cutoff now hours) e.published = true
      ↔ ∃ t, e.published = some t ∧ t < now - hours * 3600)
    ∧ isExcludedByRecency (cutoff now 24) (some (now - 25 * 3600)) = true
    ∧ (e.published = none →
        isExcludedByRecency (cutoff now hours) e.published = false)
    ∧ (kw (pyStrip e.title ++ ' ' :: pyStrip e.summary) = true →
        pyStrip e.link ≠ [] →
        (procEntry kw iso (cutoff now hours) src e = none
          ↔ isExcludedByRecency (cutoff now hours) e.published = true)) := by
  refine ⟨?_, ?_, ?_, ?_⟩
  · cases hp : e.published with
    | none => simp [isExcludedByRecency]
    | some t =>
      simp only [isExcludedByRecency, cutoff, decide_eq_true_eq]
      constructor
      · intro h; exact ⟨t, rfl, h⟩
      · rintro ⟨t', ht', hlt⟩
        cases ht'
        exact hlt
  · simp only [isExcludedByRecency, cutoff, decide_eq_true_eq]
    omega
  · intro h; rw [h]; rfl
  · intro hkw hlink
    by_cases hexc : isExcludedByRecency (cutoff now hours) e.published = true
    · simp [procEntry, hkw, hexc]
    · have hexc' : isExcludedByRecency (cutoff now hours) e.published = false :=
        by simpa using hexc
      simp [procEntry, hkw, hexc', hlink]

theorem recency_filter_spec_witness :
    isExcludedByRecency (cutoff 0 24) (some (0 - 25 * 3600)) = true
    ∧ (procEntry (fun _ => true) (fun _ => []) (cutoff 0 24) []
        ⟨"t".toList, "l".toList, "s".toList, some (-(90000 : ℤ))⟩ = none
        ↔ isExcludedByRecency (cutoff 0 24)
            (Entry.published ⟨"t".toList, "l".toList, "s".toList,
              some (-(90000 : ℤ))⟩) = true)
    ∧ isExcludedByRecency (cutoff 0 5)
        (Entry.published ⟨"t".toList, "l".toList, "s".toList, none⟩) = false :=
  ⟨(recency_filter_spec 0 24 ⟨"t".toList, "l".toList, "s".toList, none⟩
      (fun _ => true) (fun _ => []) []).2.1,
   (recency_filter_spec 0 24 ⟨"t".toList, "l".toList, "s".toList,
      some (-(90000 : ℤ))⟩ (fun _ => true) (fun _ => []) []).2.2.2
     (by decide) (by decide),
   (recency_filter_spec 0 5 ⟨"t".toList, "l".toList, "s".toList, none⟩
      (fun _ => true) (fun _ => []) []).2.2.1 rfl⟩

/-! ## The sort of line 86 -/

/-- Python string `≤` (lexicographic by code point). -/
def lexLe : List Char → List Char → Bool
  | [], _ => true
  | _ :: _, [] => false
  | a :: as, b :: bs =>
    if a < b then true else if b < a then false else lexLe as bs

theorem lexLe_refl : ∀ a : List Char, lexLe a a = true := by
  intro a
  induction a with
  | nil => rfl
  | cons x as ih =>
    rw [lexLe, if_neg (lt_irrefl x), if_neg (lt_irrefl x)]
    exact ih

theorem lexLe_trans : ∀ a b c : List Char,
    lexLe a b = true → lexLe b c = true → lexLe a c = true := by
  intro a
  induction a with
  | nil => intro b c _ _; rfl
  | cons x as ih =>
    intro b c hab hbc
    cases b with
    | nil => simp [lexLe] at hab
    | cons y bs =>
      cases c with
      | nil => simp [lexLe] at hbc
      | cons z cs =>
        rw [lexLe] at hab hbc ⊢
        rcases lt_trichotomy x y with hxy | hxy | hxy
        · rcases lt_trichotomy y z with hyz | hyz | hyz
          · rw [if_pos (hxy.trans hyz)]
          · subst hyz; rw [if_pos hxy]
          · rw [if_neg (asymm hyz), if_pos hyz] at hbc
            exact absurd hbc (by simp)
        · subst hxy
          rw [if_neg (lt_irrefl x), if_neg (lt_irrefl x)] at hab
          rcases lt_trichotomy x z with hxz | hxz | hxz
          · rw [if_pos hxz]
          · subst hxz
            rw [if_neg (lt_irrefl x), if_neg (lt_irrefl x)] at hbc ⊢
            exact ih bs cs hab hbc
          · rw [if_neg (asymm hxz), if_pos hxz] at hbc
            exact absurd hbc (by simp)
        · rw [if_neg (asymm hxy), if_pos hxy] at hab
          exact absurd hab (by simp)

theorem lexLe_total : ∀ a b : List Char, (lexLe a b || lexLe b a) = true := by
  intro a
  induction a with
  | nil => intro b; rfl
  | cons x as ih =>
    intro b
    cases b with
    | nil => rfl
    | cons y bs =>
      rw [lexLe, lexLe]
      rcases lt_trichotomy x y with h | h | h
      · rw [if_pos h]; rfl
      · subst h
        rw [if_neg (lt_irrefl x), if_neg (lt_irrefl x), if_neg (lt_irrefl x),
          if_neg (lt_irrefl x)]
        exact ih bs
      · rw [if_neg (asymm h), if_pos h, if_pos h]
        rfl

theorem lexLe_nil_right : ∀ k : List Char, lexLe k [] = true → k = [] := by
  intro k h
  cases k with
  | nil => rfl
  | cons x ks => simp [lexLe] at h

/-- The sort key of line 86: `x['published'] or ''` (a missing
timestamp is replaced by the empty string). -/
def sortKey (c : Cand) : List Char := c.published.getD []

/-- `deduped.sort(key=lambda x: x['published'] or '', reverse=True)`
(line 86).  Python `list.sort` is a stable sort; `reverse=True` orders
the keys descending while still keeping equal-key elements in their
original relative order.  A stable sort is uniquely determined by those
two properties, so it is modelled by the stable `List.mergeSort` with
comparison `sortKey b ≤ sortKey a`. -/
def sortCands (l : List Cand) : List Cand :=
  l.mergeSort (fun a b => lexLe (sortKey b) (sortKey a))

/-- C6: the deduplicated candidate list is sorted descending by the
published string with a missing timestamp treated as the empty string;
the sort is a permutation, it is stable (a pair in discovery order with
equal keys stays in that order), and after a candidate with a missing
timestamp only empty-key candidates follow (they sort last). -/
theorem sort_published_desc_stable (kw : List Char → Bool)
    (iso : ℤ → List Char) (cut : ℤ) (feeds : List Feed) :
    List.Perm (sortCands (dedupe (collect kw iso cut feeds)))
        (dedupe (collect kw iso cut feeds))
    ∧ (sortCands (dedupe (collect kw iso cut feeds))).Pairwise
        (fun a b => lexLe (sortKey b) (sortKey a) = true)
    ∧ (∀ a b, sortKey a = sortKey b →
        List.Sublist [a, b] (dedupe (collect kw iso cut feeds)) →
        List.Sublist [a, b] (sortCands (dedupe (collect kw iso cut feeds))))
    ∧ (∀ pre a post,
        sortCands (dedupe (collect kw iso cut feeds)) = pre ++ a :: post →
        a.published = none → ∀ b ∈ post, sortKey b = []) := by
  have htrans : ∀ a b c : Cand,
      lexLe (sortKey b) (sortKey a) → lexLe (sortKey c) (sortKey b) →
      lexLe (sortKey c) (sortKey a) :=
    fun a b c hab hbc => lexLe_trans (sortKey c) (sortKey b) (sortKey a) hbc hab
  have htotal : ∀ a b : Cand,
      (lexLe (sortKey b) (sortKey a) || lexLe (sortKey a) (sortKey b)) = true :=
    fun a b => lexLe_total (sortKey b) (sortKey a)
  have hsorted := List.sorted_mergeSort htrans htotal
    (dedupe (collect kw iso cut feeds))
  refine ⟨List.mergeSort_perm _ _, hsorted, ?_, ?_⟩
  · intro a b hkey hsub
    exact List.pair_sublist_mergeSort htrans htotal
      (by rw [hkey]; exact lexLe_refl (sortKey b)) hsub
  · intro pre a post heq hnone b hb
    rw [show sortCands (dedupe (collect kw iso cut feeds))
        = List.mergeSort (dedupe (collect kw iso cut feeds))
            (fun a b => lexLe (sortKey b) (sortKey a)) from rfl] at heq
    rw [heq] at hsorted
    have hpost := (List.pairwise_append.mp hsorted).2.1
    have hrel := (List.pairwise_cons.mp hpost).1 b hb
    have hka : sortKey a = [] := by simp [sortKey, hnone]
    rw [hka] at hrel
    exact lexLe_nil_right (sortKey b) hrel

theorem sort_published_desc_stable_witness :
    List.Sublist
      [(⟨"t1".toList, "u1".toList, "A".toList, some "p".toList⟩ : Cand),
       ⟨"t2".toList, "u2".toList, "B".toList, some "p".toList⟩]
      (sortCands (dedupe (collect (fun _ => true) (fun _ => "p".toList) 0
        [⟨"A".toList, [⟨"t1".toList, "u1".toList, "s1".toList, some 5⟩]⟩,
         ⟨"B".toList, [⟨"t2".toList, "u2".toList, "s2".toList, some 5⟩]⟩]))) := by
  refine (sort_published_desc_stable (fun _ => true) (fun _ => "p".toList) 0
    [⟨"A".toList, [⟨"t1".toList, "u1".toList, "s1".toList, some 5⟩]⟩,
     ⟨"B".toList, [⟨"t2".toList, "u2".toList, "s2".toList, some 5⟩]⟩]).2.2.1
    ⟨"t1".toList, "u1".toList, "A".toList, some "p".toList⟩
    ⟨"t2".toList, "u2".toList, "B".toList, some "p".toList⟩
    (by decide) ?_
  rw [show dedupe (collect (fun _ => true) (fun _ => "p".toList) 0
      [⟨"A".toList, [⟨"t1".toList, "u1".toList, "s1".toList, some 5⟩]⟩,
       ⟨"B".toList, [⟨"t2".toList, "u2".toList, "s2".toList, some 5⟩]⟩])
    = [⟨"t1".toList, "u1".toList, "A".toList, some "p".toList⟩,
       ⟨"t2".toList, "u2".toList, "B".toList, some "p".toList⟩] from by decide]

/-! ## The orchestrator (`scripts/gen_stories_from_urls.py`) -/

/-- The augment loop of lines 165-175: starting at 1-based index `i`,
pair each item with its expected screenshot index (`shot_{i:02d}.png`),
aborting with the fatal message of lines 168-172 at the first missing
screenshot.  `shotExists i` is whether `shots_dir/shot_{i:02d}.png`
exists when the loop runs (after the optional capture phase). -/
def augmentFrom (shotExists : ℕ → Bool) : ℕ → List Item →
    Except String (List (Item × ℕ))
  | _, [] => .ok []
  | i, it :: rest =>
    if shotExists i then
      (augmentFrom shotExists (i+1) rest).map (fun l => (it, i) :: l)
    else
      .error "Screenshot ausente"

/-- The configuration phase of `main` (lines 126-175): missing items
file (lines 127-128), empty item list (lines 131-132), then the augment
loop.  An `.ok` value is the augmented list handed to the composer
subprocess (lines 180-192); `.error msg` models `sys.exit(msg)`, which
prints the message to standard error and exits with code 1 before the
composer is ever invoked. -/
def genStories (itemsFileExists : Bool) (items : List Item)
    (shotExists : ℕ → Bool) : Except String (List (Item × ℕ)) :=
  if ¬ itemsFileExists then .error "Arquivo nao encontrado"
  else if items = [] then .error "items.json esta vazio."
  else augmentFrom shotExists 1 items

theorem exceptMap_isOk {α β : Type} (f : α → β) (e : Except String α) :
    (e.map f).isOk = e.isOk := by
  cases e <;> rfl

theorem augmentFrom_ok_iff (se : ℕ → Bool) :
    ∀ items (i : ℕ), (augmentFrom se i items).isOk = true ↔
      ∀ j, i ≤ j → j < i + items.length → se j = true := by
  intro items
  induction items with
  | nil =>
    intro i
    constructor
    · intro _ j h1 h2
      simp at h2
      omega
    · intro _; rfl
  | cons it rest ih =>
    intro i
    rw [augmentFrom]
    by_cases h : se i
    · rw [if_pos h, exceptMap_isOk, ih (i + 1)]
      constructor
      · intro hall j h1 h2
        rcases Nat.eq_or_lt_of_le h1 with he | hl
        · rw [← he]; exact h
        · exact hall j hl (by simp at h2 ⊢; omega)
      · intro hall j h1 h2
        exact hall j (by omega) (by simp at h2 ⊢; omega)
    · rw [if_neg h]
      constructor
      · intro hcon; simp [Except.isOk, Except.toBool] at hcon
      · intro hall
        exact absurd (hall i le_rfl (by simp)) h

theorem augmentFrom_error_msg (se : ℕ → Bool) :
    ∀ items (i : ℕ) m, augmentFrom se i items = .error m →
      m = "Screenshot ausente" := by
  intro items
  induction items with
  | nil => intro i m h; simp [augmentFrom] at h
  | cons it rest ih =>
    intro i m h
    rw [augmentFrom] at h
    by_cases hse : se i
    · rw [if_pos hse] at h
      cases hh : augmentFrom se (i + 1) rest with
      | ok l => rw [hh] at h; simp [Except.map] at h
      | error m' =>
        rw [hh] at h
        simp only [Except.map] at h
        cases h
        exact ih (i + 1) m hh
    · rw [if_neg hse] at h
      cases h
      rfl

/-- C9: the orchestrator reaches the composer exactly when the items
file exists, the item list is nonempty, and the expected screenshot
exists for every 1-based item index; otherwise it aborts with a
nonempty diagnostic message (`sys.exit` prints it to stderr and exits
with code 1) before the composer subprocess is invoked. -/
theorem orchestrator_fatal_spec (f : Bool) (items : List Item)
    (se : ℕ → Bool) :
    ((genStories f items se).isOk = true
      ↔ f = true ∧ items ≠ []
        ∧ ∀ i, 1 ≤ i → i ≤ items.length → se i = true)
    ∧ (∀ m, genStories f items se = .error m → m ≠ "") := by
  constructor
  · unfold genStories
    by_cases hf : f = true
    · rw [if_neg (by simp [hf])]
      by_cases hi : items = []
      · rw [if_pos hi]
        simp [Except.isOk, Except.toBool, hi]
      · rw [if_neg hi, augmentFrom_ok_iff se items 1]
        constructor
        · intro hall
          exact ⟨hf, hi, fun i h1 h2 => hall i h1 (by omega)⟩
        · intro ⟨_, _, hall⟩ j h1 h2
          exact hall j h1 (by omega)
    · rw [if_pos (by simpa using hf)]
      simp [Except.isOk, Except.toBool, hf]
  · intro m hm
    unfold genStories at hm
    by_cases hf : f = true
    · rw [if_neg (by simp [hf])] at hm
      by_cases hi : items = []
      · rw [if_pos hi] at hm
        cases hm
        decide
      · rw [if_neg hi] at hm
        rw [augmentFrom_error_msg se items 1 m hm]
        decide
    · rw [if_pos (by simpa using hf)] at hm
      cases hm
      decide

theorem orchestrator_fatal_spec_witness :
    (genStories true [⟨"t".toList, "u".toList, [], []⟩]
        (fun _ => true)).isOk = true
    ∧ "Arquivo nao encontrado" ≠ "" :=
  ⟨(orchestrator_fatal_spec true [⟨"t".toList, "u".toList, [], []⟩]
      (fun _ => true)).1.mpr ⟨rfl, by simp, fun i _ _ => rfl⟩,
   (orchestrator_fatal_spec false [] (fun _ => true)).2
     "Arquivo nao encontrado" rfl⟩

/-! ## `fit_cover` (`scripts/make_story.py` lines 33-41) -/

/-- `scale = max(w/iw, h/ih)` (line 36), with the divisions taken
exactly over `ℚ`; the code computes them in IEEE doubles. -/
def fitScale (iw ih w h : ℕ) : ℚ :=
  max ((w : ℚ) / (iw : ℚ)) ((h : ℚ) / (ih : ℚ))

/-- `nw, nh = int(iw * scale), int(ih * scale)` (line 37) under exact
arithmetic; the values are nonnegative, so Python `int` truncation is
the floor. -/
def fitResize (iw ih w h : ℕ) : ℤ × ℤ :=
  (⌊(iw : ℚ) * fitScale iw ih w h⌋, ⌊(ih : ℚ) * fitScale iw ih w h⌋)

/-- `left = (nw - w) // 2` (line 39, Python floor division). -/
def cropLeft (nw w : ℤ) : ℤ := Int.fdiv (nw - w) 2

/-- `top = (nh - h) // 2` (line 40). -/
def cropTop (nh h : ℤ) : ℤ := Int.fdiv (nh - h) 2

/-- `img.crop((left, top, left+w, top+h))` (line 41) always returns an
image of exactly the box size `w × h` (PIL pads any part of the box
lying outside the source). -/
def cropOutSize (w h : ℤ) : ℤ × ℤ := (w, h)

/-- The crop box of line 41 reaches outside the resized `nw × nh`
image, i.e. the returned image contains padded pixels - a visible
border. -/
def cropHasBorder (nw nh w h : ℤ) : Bool :=
  decide (cropLeft nw w < 0) || decide (cropTop nh h < 0)
    || decide (cropLeft nw w + w > nw) || decide (cropTop nh h + h > nh)

/-- C1: the output of `fit_cover` is always exactly 1080 x 1920, and
under exact real arithmetic the scaled size is at least the canvas on
both axes, so the crop box stays inside the resized image and there is
no border - the claim as stated.  The code, however, computes `scale`
in IEEE doubles, where `int(iw * scale)` can truncate to one pixel
below the canvas width: for a 535 x 952 source, `1080/535` rounds so
that `int(535 * (1080/535)) = 1079` and `int(952 * (1080/535)) = 1921`;
the last conjunct evaluates the crop geometry at those float-computed
sizes and finds a visible (1-pixel, black-padded) border, contradicting
the claim's "no visible border regardless of the source aspect
ratio". -/
theorem fit_cover_spec (iw ih : ℕ) (hiw : 0 < iw) (hih : 0 < ih) :
    cropOutSize 1080 1920 = (1080, 1920)
    ∧ (fitResize iw ih 1080 1920).1 ≥ 1080
    ∧ (fitResize iw ih 1080 1920).2 ≥ 1920
    ∧ cropHasBorder (fitResize iw ih 1080 1920).1
        (fitResize iw ih 1080 1920).2 1080 1920 = false
    ∧ cropHasBorder 1079 1921 1080 1920 = true := by
  have hiwQ : (0 : ℚ) < (iw : ℚ) := by exact_mod_cast hiw
  have hihQ : (0 : ℚ) < (ih : ℚ) := by exact_mod_cast hih
  have hnw : (fitResize iw ih 1080 1920).1 ≥ 1080 := by
    have hle : (1080 : ℚ) / (iw : ℚ) ≤ fitScale iw ih 1080 1920 :=
      le_max_left _ _
    have h1 : ((1080 : ℚ)) ≤ (iw : ℚ) * fitScale iw ih 1080 1920 := by
      calc (1080 : ℚ) = (iw : ℚ) * ((1080 : ℚ) / (iw : ℚ)) := by
            field_simp
        _ ≤ (iw : ℚ) * fitScale iw ih 1080 1920 :=
            mul_le_mul_of_nonneg_left hle (le_of_lt hiwQ)
    show (1080 : ℤ) ≤ ⌊(iw : ℚ) * fitScale iw ih 1080 1920⌋
    rw [Int.le_floor]
    exact_mod_cast h1
  have hnh : (fitResize iw ih 1080 1920).2 ≥ 1920 := by
    have hle : (1920 : ℚ) / (ih : ℚ) ≤ fitScale iw ih 1080 1920 :=
      le_max_right _ _
    have h1 : ((1920 : ℚ)) ≤ (ih : ℚ) * fitScale iw ih 1080 1920 := by
      calc (1920 : ℚ) = (ih : ℚ) * ((1920 : ℚ) / (ih : ℚ)) := by
            field_simp
        _ ≤ (ih : ℚ) * fitScale iw ih 1080 1920 :=
            mul_le_mul_of_nonneg_left hle (le_of_lt hihQ)
    show (1920 : ℤ) ≤ ⌊(ih : ℚ) * fitScale iw ih 1080 1920⌋
    rw [Int.le_floor]
    exact_mod_cast h1
  refine ⟨rfl, hnw, hnh, ?_, by decide⟩
  have hfd : ∀ x : ℤ, Int.fdiv x 2 = x / 2 :=
    fun x => Int.fdiv_eq_ediv x (by norm_num)
  simp only [cropHasBorder, cropLeft, cropTop, hfd, Bool.or_eq_false_iff,
    decide_eq_false_iff_not, not_lt]
  refine ⟨⟨⟨?_, ?_⟩, ?_⟩, ?_⟩ <;> omega

theorem fit_cover_spec_witness :
    ((0 : ℕ) < 540 ∧ (0 : ℕ) < 960)
    ∧ (fitResize 540 960 1080 1920).1 ≥ 1080
    ∧ cropHasBorder 1079 1921 1080 1920 = true :=
  ⟨⟨by decide, by decide⟩,
   (fit_cover_spec 540 960 (by decide) (by decide)).2.1,
   (fit_cover_spec 540 960 (by decide) (by decide)).2.2.2.2⟩
